import Mathlib

/-!
# docker-adguard-dns-sync: label parser and reconciliation transitions

A shallow embedding of `src/app/main.go`.

* A Go `string` is a sequence of bytes; `GoString` is the list of its bytes.
  Indexing (`domain[0]`) and slicing (`domain[1 : len(domain)-1]`) act on bytes.
* A label value reaches the program JSON-decoded from the container runtime, so
  it is valid UTF-8: the label text is a Lean `String` (a sequence of Unicode
  scalar values).  `regexp` and `strings.TrimSpace` work rune by rune, so they
  are embedded on `List Char`; each trimmed argument is then UTF-8 encoded and
  the byte-level quote test and slice are applied to the encoding.
* A run-time panic of the Go program is a `none` / `Except.error` result.
-/

namespace DnsSync

/-! ## Strings -/

/-- A Go string: its bytes, each a natural number below 256. -/
abbrev GoString := List Nat

/-- UTF-8 encoding of one code point (the scheme of `utf8.AppendRune`). -/
def utf8EncodeRune (r : Nat) : GoString :=
  if r < 0x80 then [r]
  else if r < 0x800 then [0xC0 + r / 64, 0x80 + r % 64]
  else if r < 0x10000 then [0xE0 + r / 4096, 0x80 + r / 64 % 64, 0x80 + r % 64]
  else [0xF0 + r / 262144, 0x80 + r / 4096 % 64, 0x80 + r / 64 % 64, 0x80 + r % 64]

/-- The bytes of a text: the concatenated UTF-8 encodings of its characters. -/
def utf8 : List Char → GoString
  | [] => []
  | c :: cs => utf8EncodeRune c.toNat ++ utf8 cs

/-- The Go string whose content is the given literal text. -/
def go (s : String) : GoString := utf8 s.toList

/-- Go's `s[lo:hi]` on a string: a run-time panic (`none`) unless
`lo ≤ hi ≤ len(s)`. -/
def slice (s : GoString) (lo hi : Nat) : Option GoString :=
  if lo ≤ hi ∧ hi ≤ s.length then some ((s.take hi).drop lo) else none

/-- The predicate `unicode.IsSpace` on a code point: the Unicode White_Space
property. -/
def isSpace (r : Nat) : Bool :=
  r == 0x09 || r == 0x0A || r == 0x0B || r == 0x0C || r == 0x0D || r == 0x20 ||
  r == 0x85 || r == 0xA0 || r == 0x1680 || (0x2000 ≤ r && r ≤ 0x200A) ||
  r == 0x2028 || r == 0x2029 || r == 0x202F || r == 0x205F || r == 0x3000

/-- The function `strings.TrimSpace`: all leading and trailing white space
removed, rune by rune. -/
def trimSpace (s : List Char) : List Char :=
  ((s.dropWhile fun c => isSpace c.toNat).reverse.dropWhile fun c => isSpace c.toNat).reverse

/-! ## The pattern `Rewrite\(([^,]+),([^)]+)\)` -/

/-- The literal head of the pattern, `Rewrite(`. -/
def rewriteHead : List Char := ['R', 'e', 'w', 'r', 'i', 't', 'e', '(']

/-- Remove the prefix `p` from `s`, if `s` starts with it. -/
def stripHead? : List Char → List Char → Option (List Char)
  | s, [] => some s
  | [], _ :: _ => none
  | c :: s, d :: p => if c = d then stripHead? s p else none

/-- One attempt to match the pattern at the very start of `s`.  On success the
result is the submatch slice `[whole, group 1, group 2]` together with the text
that follows the match.

`[^,]+` is greedy, and what follows it must be a comma: the only run of
non-comma characters that is followed by a comma is the longest one, so group 1
is the longest run of non-comma characters (it may hold parentheses), it must
be non-empty, and a comma must follow.  In the same way group 2 is the longest
run of characters other than `)`, non-empty, followed by `)`. -/
def matchHere (s : List Char) : Option (List (List Char) × List Char) :=
  match stripHead? s rewriteHead with
  | none => none
  | some s1 =>
    let g1 := s1.takeWhile fun c => c != ','
    match g1, s1.dropWhile fun c => c != ',' with
    | _ :: _, _ :: s2 =>
      let g2 := s2.takeWhile fun c => c != ')'
      match g2, s2.dropWhile fun c => c != ')' with
      | _ :: _, _ :: rest => some ([rewriteHead ++ g1 ++ ',' :: g2 ++ [')'], g1, g2], rest)
      | _, _ => none
    | _, _ => none

/-- Successive non-overlapping matches, leftmost first: try the pattern at the
current position; after a match go on behind it, otherwise move one character
on.  `fuel` bounds the number of positions tried; `findAll_match` and
`findAll_skip` show that the fuel given below never runs out. -/
def findAllFrom : Nat → List Char → List (List (List Char))
  | 0, _ => []
  | fuel + 1, s =>
    match matchHere s with
    | some (m, rest) => m :: findAllFrom fuel rest
    | none =>
      match s with
      | [] => []
      | _ :: t => findAllFrom fuel t

/-- The call `re.FindAllStringSubmatch(labelContent, -1)`. -/
def findAllStringSubmatch (s : List Char) : List (List (List Char)) :=
  findAllFrom (s.length + 1) s

/-! ## `parseRewritesLabel` -/

/-- A rewrite rule, `type RewritesLabel struct`. -/
structure RewritesLabel where
  Domain : GoString
  IP : GoString
  deriving DecidableEq, Repr

/-- Lines 38-40 and 41-43: when the argument is non-empty and its first byte is
a double or a single quote, it is replaced by `arg[1 : len(arg)-1]`. -/
def stripQuotes (arg : GoString) : Option GoString :=
  if arg.length > 0 ∧ (arg.head? = some 34 ∨ arg.head? = some 39) then
    slice arg 1 (arg.length - 1)
  else some arg

/-- The body of the loop over the matches (lines 35-45), `rewrites` being the
slice built so far. -/
def parseMatch (rewrites : List RewritesLabel) (m : List (List Char)) :
    Option (List RewritesLabel) :=
  match m with
  | [_, m1, m2] =>
    match stripQuotes (utf8 (trimSpace m1)), stripQuotes (utf8 (trimSpace m2)) with
    | some domain, some ip => some (rewrites ++ [{ Domain := domain, IP := ip }])
    | _, _ => none
  | _ => some rewrites

/-- The loop `for _, match := range matches`. -/
def parseMatches : List (List (List Char)) → List RewritesLabel → Option (List RewritesLabel)
  | [], rewrites => some rewrites
  | m :: ms, rewrites =>
    match parseMatch rewrites m with
    | some rewrites1 => parseMatches ms rewrites1
    | none => none

/-- The function `parseRewritesLabel`; `none` is a run-time panic. -/
def parseRewritesLabel (labelContent : String) : Option (List RewritesLabel) :=
  parseMatches (findAllStringSubmatch labelContent.toList) []

/-! ## Well-formed label texts -/

/-- The single quote character. -/
def singleQuote : Char := Char.ofNat 39

/-- The double quote character. -/
def doubleQuote : Char := Char.ofNat 34

/-- The three ways an argument may be written. -/
inductive Quoting
  | bare
  | single
  | double
  deriving DecidableEq, Repr

/-- The argument text as written under a quoting. -/
def Quoting.wrap : Quoting → List Char → List Char
  | .bare, a => a
  | .single, a => singleQuote :: a ++ [singleQuote]
  | .double, a => doubleQuote :: a ++ [doubleQuote]

/-- An argument of a clause: its text, how it is quoted, and the number of
spaces written before and after it. -/
structure Arg where
  text : List Char
  quoting : Quoting
  padLeft : Nat
  padRight : Nat
  deriving DecidableEq, Repr

/-- The argument as it stands in the label text. -/
def Arg.write (a : Arg) : List Char :=
  List.replicate a.padLeft ' ' ++ a.quoting.wrap a.text ++ List.replicate a.padRight ' '

/-- A clause `Rewrite(<domain>,<target>)`. -/
structure Clause where
  domain : Arg
  target : Arg
  deriving DecidableEq, Repr

/-- The clause as it stands in the label text. -/
def Clause.write (c : Clause) : List Char :=
  rewriteHead ++ c.domain.write ++ ',' :: c.target.write ++ [')']

/-- The submatch slice the pattern yields on the clause. -/
def Clause.submatch (c : Clause) : List (List Char) :=
  [c.write, c.domain.write, c.target.write]

/-- The rule a clause declares. -/
def Clause.rule (c : Clause) : RewritesLabel :=
  { Domain := utf8 c.domain.text, IP := utf8 c.target.text }

/-- The label text: the clauses separated by single spaces. -/
def writeLabel : List Clause → List Char
  | [] => []
  | [c] => c.write
  | c :: cs => c.write ++ ' ' :: writeLabel cs

/-- An argument text is plain when it is non-empty and holds no comma,
parenthesis, quote or white space character. -/
def plain (a : List Char) : Bool :=
  !a.isEmpty && a.all fun c =>
    c != ',' && c != '(' && c != ')' && c != singleQuote && c != doubleQuote &&
      !isSpace c.toNat

/-- Both argument texts of the clause are plain. -/
def Clause.plain (c : Clause) : Bool :=
  DnsSync.plain c.domain.text && DnsSync.plain c.target.text

/-! ## The state store -/

/-- The type `ContainerState map[string][]RewritesLabel`: the slice stored
under each key, `none` for a key that is not in the map. -/
abbrev ContainerState := String → Option (List RewritesLabel)

/-- The map `make(ContainerState)`. -/
def emptyState : ContainerState := fun _ => none

/-- The statement `state[id] = append(state[id], label)`. -/
def ContainerState.append (state : ContainerState) (id : String) (label : RewritesLabel) :
    ContainerState :=
  fun k => if k = id then some ((state id).getD [] ++ [label]) else state k

/-- The statement `delete(state, id)`. -/
def ContainerState.delete (state : ContainerState) (id : String) : ContainerState :=
  fun k => if k = id then none else state k

/-- The function `domainExistsInState`. -/
def domainExistsInState (containerID : String) (domain ip : GoString)
    (state : ContainerState) : Bool :=
  match state containerID with
  | none => false
  | some labels => labels.any fun label => label.Domain == domain && label.IP == ip

/-! ## The outside world -/

/-- What the program does to the outside world. -/
inductive Effect
  /-- The request `GET /control/rewrite/list` -/
  | list
  /-- The request `POST /control/rewrite/add` with the rule as body -/
  | add (label : RewritesLabel)
  /-- The request `POST /control/rewrite/delete` with the rule as body -/
  | delete (label : RewritesLabel)
  /-- The call `ioutil.WriteFile(stateFilename, ...)` -/
  | writeFile
  /-- The call `cli.ContainerInspect` for the container -/
  | inspect (id : String)
  deriving DecidableEq, Repr

/-- How a list request ends. -/
inductive ListOutcome
  /-- The call `httpClient.Do` returns an error and a nil response -/
  | transportError
  /-- the body does not decode into `[]RewritesLabel` -/
  | undecodable
  /-- the body decodes into these rules -/
  | rules (existingDomains : List RewritesLabel)
  deriving DecidableEq, Repr

/-- The result of `sendAPICall`: an error, or the status code of the response. -/
inductive SendOutcome
  | error
  | status (statusCode : Nat)
  deriving DecidableEq, Repr

/-- The content of the state file. -/
inductive FileContent
  /-- there is no file -/
  | missing
  /-- the JSON document of a store -/
  | document (state : ContainerState)
  /-- anything else -/
  | other

/-- The sequence the state file records for a container; `none` when the file
has no entry for it or is not the document of a store. -/
def FileContent.entry (f : FileContent) (id : String) : Option (List RewritesLabel) :=
  match f with
  | .document state => state id
  | _ => none

/-- The result of `cli.ContainerInspect`: an error, or the value of the label
`syncdns.rewrites` of the container when it has one. -/
inductive InspectOutcome
  | error
  | labels (rewrites : Option String)
  deriving DecidableEq, Repr

/-- The outside world.  Each answer may depend on everything the program has
done so far: the argument is the trace of effects up to and including the one
being answered. -/
structure World where
  /-- the answer to a list request -/
  list : List Effect → ListOutcome
  /-- the answer to an add or delete request -/
  send : List Effect → SendOutcome
  /-- The result of a file write: `none` when it succeeds, else the content
  the failed write leaves behind -/
  write : List Effect → Option FileContent
  /-- the answer to the inspection of a container -/
  inspect : List Effect → InspectOutcome

/-- The running program: the effects so far (oldest first), the in-memory
store `state`, and the state file. -/
structure Proc where
  trace : List Effect
  state : ContainerState
  file : FileContent

/-- The effects issued between two points of a run. -/
def issued (before after : Proc) : List Effect :=
  after.trace.drop before.trace.length

/-- The last point a run reached, whether it ended in a panic or not. -/
def final : Except Proc Proc → Proc
  | .ok p => p
  | .error p => p

/-! ## The transitions -/

/-- The function `saveState` together with the caller's `if err != nil`, which
only prints. -/
def saveState (w : World) (p : Proc) : Proc :=
  let trace := p.trace ++ [Effect.writeFile]
  match w.write trace with
  | none => { trace := trace, state := p.state, file := .document p.state }
  | some left => { trace := trace, state := p.state, file := left }

/-- The function `domainExistsInAPIList`.  `http.NewRequest` gets the method
and URL that `main` has already used at line 116, where a failure ends the
program, so it succeeds here.  The error of `httpClient.Do` is not looked at:
on a transport error `resp` is nil and `resp.Body` panics (`Except.error`). -/
def domainExistsInAPIList (w : World) (domain ip : GoString) (p : Proc) :
    Except Proc (Bool × Proc) :=
  let p1 : Proc := { p with trace := p.trace ++ [Effect.list] }
  match w.list p1.trace with
  | .transportError => .error p1
  | .undecodable => .ok (false, p1)
  | .rules existingDomains =>
    .ok (existingDomains.any fun d => d.Domain == domain && d.IP == ip, p1)

/-- The create transition: the body of the loop `for _, label := range labels`
of the startup pass (lines 176-205) and of the start event (lines 229-258),
which differ only in the name of the container id. -/
def createTransition (w : World) (id : String) (label : RewritesLabel) (p : Proc) :
    Except Proc Proc :=
  if domainExistsInState id label.Domain label.IP p.state then .ok p
  else
    match domainExistsInAPIList w label.Domain label.IP p with
    | .error q => .error q
    | .ok (true, p1) => .ok p1
    | .ok (false, p1) =>
      let p2 : Proc := { p1 with trace := p1.trace ++ [Effect.add label] }
      match w.send p2.trace with
      | .error => .ok p2
      | .status statusCode =>
        if statusCode = 200 then
          .ok (saveState w { p2 with state := p2.state.append id label })
        else .ok p2

/-- The delete transition: the body of the loop over the owned rules (lines
264-284).  Every outcome of the delete request only prints. -/
def deleteTransition (w : World) (label : RewritesLabel) (p : Proc) : Except Proc Proc :=
  match domainExistsInAPIList w label.Domain label.IP p with
  | .error q => .error q
  | .ok (false, p1) => .ok p1
  | .ok (true, p1) =>
    let p2 : Proc := { p1 with trace := p1.trace ++ [Effect.delete label] }
    match w.send p2.trace with
    | .error => .ok p2
    | .status _ => .ok p2

/-- A loop `for _, label := range labels`; a panic in the body ends it. -/
def forLabels (body : RewritesLabel → Proc → Except Proc Proc) :
    List RewritesLabel → Proc → Except Proc Proc
  | [], p => .ok p
  | label :: rest, p =>
    match body label p with
    | .ok q => forLabels body rest q
    | .error q => .error q

/-- What is done for a container that carries the label `syncdns.rewrites`
(lines 174-205 and 227-258). -/
def createAll (w : World) (id : String) (rewrites : String) (p : Proc) : Except Proc Proc :=
  match parseRewritesLabel rewrites with
  | none => .error p
  | some labels => forLabels (createTransition w id) labels p

/-- An event of the container runtime. -/
structure Event where
  ID : String
  Action : String
  deriving DecidableEq, Repr

/-- One event of the loop (lines 215-294). -/
def handleEvent (w : World) (event : Event) (p : Proc) : Except Proc Proc :=
  if event.Action = "start" ∨ event.Action = "unpause" then
    let p1 : Proc := { p with trace := p.trace ++ [Effect.inspect event.ID] }
    match w.inspect p1.trace with
    | .error => .ok p1
    | .labels none => .ok p1
    | .labels (some rewrites) => createAll w event.ID rewrites p1
  else if event.Action = "stop" ∨ event.Action = "kill" ∨ event.Action = "die" ∨
      event.Action = "pause" ∨ event.Action = "restart" then
    match p.state event.ID with
    | none => .ok p
    | some labels =>
      match forLabels (deleteTransition w) labels p with
      | .error q => .error q
      | .ok q => .ok (saveState w { q with state := q.state.delete event.ID })
  else .ok p

/-- A running container as `cli.ContainerList` reports it: its id and the
value of its label `syncdns.rewrites`, if it has one. -/
structure Container where
  ID : String
  rewrites : Option String
  deriving DecidableEq, Repr

/-- The startup pass (lines 167-207). -/
def startupPass (w : World) : List Container → Proc → Except Proc Proc
  | [], p => .ok p
  | container :: rest, p =>
    match container.rewrites with
    | none => startupPass w rest p
    | some rewrites =>
      match createAll w container.ID rewrites p with
      | .ok q => startupPass w rest q
      | .error q => .error q

/-- The program from the state file check up to `state := make(ContainerState)`
(lines 105-164), started with the given state file, the environment variables
and the client of the container runtime being in order.  A missing file is
written as the empty document; a file that exists is left alone and is not
read.  The result is `none` when `main` returns before the startup pass (the
state file cannot be created, or the first listing fails). -/
def startup (w : World) (file : FileContent) : Option Proc :=
  let created : Option (List Effect × FileContent) :=
    match file with
    | .missing =>
      match w.write [Effect.writeFile] with
      | none => some ([Effect.writeFile], .document emptyState)
      | some _ => none
    | .document s => some ([], .document s)
    | .other => some ([], .other)
  match created with
  | none => none
  | some (trace, file1) =>
    match w.list (trace ++ [Effect.list]) with
    | .rules _ => some { trace := trace ++ [Effect.list], state := emptyState, file := file1 }
    | _ => none

/-! ## Concrete inputs -/

/-- The rule `{a.com, 1.2.3.4}`. -/
def ruleA : RewritesLabel := { Domain := go "a.com", IP := go "1.2.3.4" }

/-- The rule `{b.com, 5.6.7.8}`. -/
def ruleB : RewritesLabel := { Domain := go "b.com", IP := go "5.6.7.8" }

/-- A world whose authority always lists the given rules and answers every add
and delete request with status 200, whose file writes succeed, and whose
containers all carry the given label value. -/
def worldListing (ds : List RewritesLabel) (rewrites : Option String) : World :=
  { list := fun _ => .rules ds
    send := fun _ => .status 200
    write := fun _ => none
    inspect := fun _ => .labels rewrites }

/-- A world whose list responses never decode; every add and delete request is
answered with status 200. -/
def worldUndecodable : World :=
  { list := fun _ => .undecodable
    send := fun _ => .status 200
    write := fun _ => none
    inspect := fun _ => .labels none }

/-- A world in which every list request fails in transport. -/
def worldUnreachable : World :=
  { list := fun _ => .transportError
    send := fun _ => .error
    write := fun _ => none
    inspect := fun _ => .labels none }

/-- A program that has done nothing yet and owns nothing. -/
def procEmpty : Proc := { trace := [], state := emptyState, file := .document emptyState }

/-- A program whose store is `{c1: [{a.com, 1.2.3.4}]}`. -/
def procOwningA : Proc :=
  { trace := [], state := emptyState.append "c1" ruleA,
    file := .document (emptyState.append "c1" ruleA) }

/-- An argument written bare and without padding. -/
def Arg.bare (text : String) : Arg :=
  { text := text.toList, quoting := .bare, padLeft := 0, padRight := 0 }

/-- An argument written in single quotes and without padding. -/
def Arg.single (text : String) : Arg :=
  { text := text.toList, quoting := .single, padLeft := 0, padRight := 0 }

/-- The clauses of the label text
`Rewrite(a.com,1.2.3.4) Rewrite('b.com','5.6.7.8')`. -/
def clausesAB : List Clause :=
  [{ domain := Arg.bare "a.com", target := Arg.bare "1.2.3.4" },
   { domain := Arg.single "b.com", target := Arg.single "5.6.7.8" }]

/-- The clause `Rewrite(b.com,5.6.7.8)`. -/
def clauseB : Clause := { domain := Arg.bare "b.com", target := Arg.bare "5.6.7.8" }

/-! ## The pattern matcher -/

theorem stripHead?_append (p s : List Char) : stripHead? (p ++ s) p = some s := by
  induction p with
  | nil => cases s <;> rfl
  | cons d p ih => simp [stripHead?, ih]

theorem stripHead?_eq_some {s p r : List Char} (h : stripHead? s p = some r) : s = p ++ r := by
  induction p generalizing s with
  | nil => cases s <;> simp_all [stripHead?]
  | cons d p ih =>
    cases s with
    | nil => simp [stripHead?] at h
    | cons c s =>
      simp only [stripHead?] at h
      split at h
      · rename_i hc
        simp [hc, ih h]
      · simp at h

theorem takeWhile_stop {p : Char → Bool} {g : List Char} {x : Char} (r : List Char)
    (hg : ∀ c ∈ g, p c = true) (hx : p x = false) :
    (g ++ x :: r).takeWhile p = g ∧ (g ++ x :: r).dropWhile p = x :: r := by
  induction g with
  | nil => simp [List.takeWhile, List.dropWhile, hx]
  | cons a g ih =>
    have ha : p a = true := hg a (by simp)
    have := ih (fun c hc => hg c (by simp [hc]))
    simp [List.takeWhile, List.dropWhile, ha, this]

theorem span_stop {p : Char → Bool} {s : List Char} {x : Char} {r : List Char}
    (h : s.dropWhile p = x :: r) :
    s = s.takeWhile p ++ x :: r ∧ p x = false ∧ ∀ c ∈ s.takeWhile p, p c = true := by
  refine ⟨?_, ?_, ?_⟩
  · conv_lhs => rw [← List.takeWhile_append_dropWhile p s, h]
  · have := List.head_dropWhile_not p s (by simp [h])
    simpa [h] using this
  · intro c hc
    exact List.mem_takeWhile_imp hc

/-- A match at the start of `s` succeeds on every text of the shape
`Rewrite(` g1 `,` g2 `)` rest with g1 comma-free, g2 free of `)`, both non-empty. -/
theorem matchHere_of_shape (g1 g2 rest : List Char) (h1 : g1 ≠ []) (h2 : g2 ≠ [])
    (c1 : ∀ c ∈ g1, c ≠ ',') (c2 : ∀ c ∈ g2, c ≠ ')') :
    matchHere (rewriteHead ++ g1 ++ ',' :: g2 ++ ')' :: rest) =
      some ([rewriteHead ++ g1 ++ ',' :: g2 ++ [')'], g1, g2], rest) := by
  have e1 := takeWhile_stop (p := fun c => c != ',') (g := g1) (x := ',') (g2 ++ ')' :: rest)
    (by intro c hc; simpa using c1 c hc) (by simp)
  have e2 := takeWhile_stop (p := fun c => c != ')') (g := g2) (x := ')') rest
    (by intro c hc; simpa using c2 c hc) (by simp)
  obtain ⟨a, g1t, rfl⟩ := List.exists_cons_of_ne_nil h1
  obtain ⟨b, g2t, rfl⟩ := List.exists_cons_of_ne_nil h2
  unfold matchHere
  simp only [List.append_assoc] at e1 e2 ⊢
  rw [stripHead?_append]
  simp only [List.cons_append] at e1 e2 ⊢
  simp only [e1.1, e1.2, e2.1, e2.2, List.cons_append]

/-- Every match at the start of `s` has that shape: the decomposition is the
only one the pattern admits. -/
theorem shape_of_matchHere {s rest : List Char} {m : List (List Char)}
    (h : matchHere s = some (m, rest)) :
    ∃ g1 g2, s = rewriteHead ++ g1 ++ ',' :: g2 ++ ')' :: rest ∧
      m = [rewriteHead ++ g1 ++ ',' :: g2 ++ [')'], g1, g2] ∧ g1 ≠ [] ∧ g2 ≠ [] ∧
      (∀ c ∈ g1, c ≠ ',') ∧ (∀ c ∈ g2, c ≠ ')') := by
  unfold matchHere at h
  split at h
  · simp at h
  · rename_i s1 hs1
    have hs := stripHead?_eq_some hs1
    simp only at h
    split at h
    · rename_i a g1t x s2 hg1 hd1
      split at h
      · rename_i b g2t y rest1 hg2 hd2
        simp only [Option.some.injEq, Prod.mk.injEq] at h
        obtain ⟨hm, hr⟩ := h
        subst hr
        have k1 := span_stop hd1
        have k2 := span_stop hd2
        have hx : x = ',' := by simpa using k1.2.1
        have hy : y = ')' := by simpa using k2.2.1
        subst hx hy
        refine ⟨a :: g1t, b :: g2t, ?_, ?_, by simp, by simp, ?_, ?_⟩
        · rw [hs, k1.1, hg1, k2.1, hg2]; simp
        · rw [← hm, hg1, hg2]
        · intro c hc; rw [← hg1] at hc; simpa using k1.2.2 c hc
        · intro c hc; rw [← hg2] at hc; simpa using k2.2.2 c hc
      · simp at h
    · simp at h

theorem matchHere_rest_length {s rest : List Char} {m : List (List Char)}
    (h : matchHere s = some (m, rest)) : rest.length < s.length := by
  obtain ⟨g1, g2, hs, -⟩ := shape_of_matchHere h
  rw [hs]; simp; omega

theorem findAllFrom_fuel (fuel fuel2 : Nat) (s : List Char)
    (h : s.length < fuel) (h2 : s.length < fuel2) :
    findAllFrom fuel s = findAllFrom fuel2 s := by
  induction fuel generalizing fuel2 s with
  | zero => omega
  | succ n ih =>
    cases fuel2 with
    | zero => omega
    | succ k =>
      simp only [findAllFrom]
      cases hm : matchHere s with
      | some mr =>
        obtain ⟨m, rest⟩ := mr
        have := matchHere_rest_length hm
        simp only
        rw [ih k rest (by omega) (by omega)]
      | none =>
        cases s with
        | nil => rfl
        | cons c t =>
          simp only
          simp only [List.length_cons] at h h2
          exact ih k t (by omega) (by omega)

/-- Unfolding of `findAllStringSubmatch` after a match. -/
theorem findAll_match {s rest : List Char} {m : List (List Char)}
    (h : matchHere s = some (m, rest)) :
    findAllStringSubmatch s = m :: findAllStringSubmatch rest := by
  have hl := matchHere_rest_length h
  have e : findAllFrom (s.length + 1) s = m :: findAllFrom s.length rest := by
    simp only [findAllFrom, h]
  unfold findAllStringSubmatch
  rw [e, findAllFrom_fuel s.length (rest.length + 1) rest hl (by omega)]

/-- Unfolding of `findAllStringSubmatch` at a position without a match. -/
theorem findAll_skip {c : Char} {t : List Char} (h : matchHere (c :: t) = none) :
    findAllStringSubmatch (c :: t) = findAllStringSubmatch t := by
  unfold findAllStringSubmatch
  simp only [findAllFrom, h, List.length_cons]

theorem findAll_nil : findAllStringSubmatch [] = [] := by
  simp [findAllStringSubmatch, findAllFrom, matchHere, stripHead?, rewriteHead]

/-! ## Trimming, encoding and quote stripping -/

theorem utf8_append (a b : List Char) : utf8 (a ++ b) = utf8 a ++ utf8 b := by
  induction a with
  | nil => rfl
  | cons c a ih => simp [utf8, ih]

theorem utf8EncodeRune_head (r : Nat) :
    ∃ h t, utf8EncodeRune r = h :: t ∧ (h < 0x80 → h = r) := by
  unfold utf8EncodeRune
  split
  · exact ⟨_, _, rfl, fun _ => rfl⟩
  · split
    · exact ⟨_, _, rfl, fun h => by omega⟩
    · split
      · exact ⟨_, _, rfl, fun h => by omega⟩
      · exact ⟨_, _, rfl, fun h => by omega⟩

theorem plain_cons {a : List Char} (h : plain a = true) :
    a ≠ [] ∧ ∀ c ∈ a, c ≠ ',' ∧ c ≠ '(' ∧ c ≠ ')' ∧ c ≠ singleQuote ∧ c ≠ doubleQuote ∧
      isSpace c.toNat = false := by
  unfold plain at h
  simp only [Bool.and_eq_true, Bool.not_eq_true', List.all_eq_true, bne_iff_ne, ne_eq] at h
  refine ⟨?_, ?_⟩
  · intro e; subst e; simp at h
  · intro c hc
    have := h.2 c hc
    tauto

theorem trimSpace_padded (k m : Nat) (body : List Char)
    (h1 : ∃ b t, body = b :: t ∧ isSpace b.toNat = false)
    (h2 : ∃ i z, body = i ++ [z] ∧ isSpace z.toNat = false) :
    trimSpace (List.replicate k ' ' ++ body ++ List.replicate m ' ') = body := by
  have hsp : ∀ n : Nat, ∀ a ∈ List.replicate n ' ', isSpace a.toNat = true := by
    intro n a ha
    rw [List.eq_of_mem_replicate ha]; decide
  unfold trimSpace
  rw [List.append_assoc, List.dropWhile_append_of_pos (hsp k)]
  obtain ⟨b, t, hb, hbs⟩ := h1
  have e1 : (body ++ List.replicate m ' ').dropWhile (fun c => isSpace c.toNat) =
      body ++ List.replicate m ' ' := by
    rw [hb]; simp [List.dropWhile, hbs]
  rw [e1, List.reverse_append, List.reverse_replicate, List.dropWhile_append_of_pos (hsp m)]
  obtain ⟨i, z, hz, hzs⟩ := h2
  rw [hz]; simp [List.dropWhile, hzs]

theorem stripQuotes_plain {a : List Char} (h : plain a = true) :
    stripQuotes (utf8 a) = some (utf8 a) := by
  obtain ⟨hne, hall⟩ := plain_cons h
  obtain ⟨c, t, rfl⟩ := List.exists_cons_of_ne_nil hne
  have hc := hall c (by simp)
  obtain ⟨b, bt, hb, hlow⟩ := utf8EncodeRune_head c.toNat
  have q1 : c.toNat ≠ 39 := by
    intro e; apply hc.2.2.2.1
    apply Char.ext; exact UInt32.ext (by simpa [Char.toNat, UInt32.toNat] using e)
  have q2 : c.toNat ≠ 34 := by
    intro e; apply hc.2.2.2.2.1
    apply Char.ext; exact UInt32.ext (by simpa [Char.toNat, UInt32.toNat] using e)
  have n1 : b ≠ 34 := fun e => q2 (by rw [← hlow (by omega)]; exact e)
  have n2 : b ≠ 39 := fun e => q1 (by rw [← hlow (by omega)]; exact e)
  simp [stripQuotes, utf8, hb, n1, n2]

theorem stripQuotes_quoted (q : Nat) (hq : q = 34 ∨ q = 39) (s : GoString) :
    stripQuotes (q :: s ++ [q]) = some s := by
  have : (q :: s ++ [q]).head? = some q := rfl
  unfold stripQuotes slice
  rw [this]
  have hl : (q :: s ++ [q]).length = s.length + 2 := by simp
  rw [hl]
  rcases hq with rfl | rfl <;> simp [List.take_append_eq_append_take]

/-- What lines 38-43 do to a trimmed argument: an argument whose first byte is
a quote loses its first and last byte whatever the last byte is, a lone quote
makes the slice panic, and any other argument is kept. -/
theorem stripQuotes_cases (a : GoString) :
    stripQuotes a =
      match a with
      | [] => some []
      | b :: t =>
        if b = 34 ∨ b = 39 then (if t = [] then none else some t.dropLast)
        else some (b :: t) := by
  cases a with
  | nil => simp [stripQuotes]
  | cons b t =>
    by_cases hb : b = 34 ∨ b = 39
    · simp only [stripQuotes, List.length_cons, List.head?_cons, Option.some.injEq, hb,
        and_true, if_true, slice, Nat.add_sub_cancel]
      cases t with
      | nil => simp
      | cons c u =>
        have : List.take u.length (c :: u) = (c :: u).dropLast := by
          rw [List.dropLast_eq_take]; simp
        simp [this]
    · simp [stripQuotes, hb]

/-! ## Well-formed clauses -/

theorem wrap_ends (q : Quoting) {a : List Char} (h : plain a = true) :
    (∃ b t, q.wrap a = b :: t ∧ isSpace b.toNat = false) ∧
    (∃ i z, q.wrap a = i ++ [z] ∧ isSpace z.toNat = false) := by
  obtain ⟨hne, hall⟩ := plain_cons h
  cases q with
  | bare =>
    refine ⟨?_, ?_⟩
    · obtain ⟨c, t, rfl⟩ := List.exists_cons_of_ne_nil hne
      exact ⟨c, t, rfl, (hall c (by simp)).2.2.2.2.2⟩
    · refine ⟨a.dropLast, a.getLast hne, (List.dropLast_append_getLast hne).symm, ?_⟩
      exact (hall _ (List.getLast_mem hne)).2.2.2.2.2
  | single =>
    exact ⟨⟨_, _, rfl, by decide⟩, ⟨singleQuote :: a, singleQuote, rfl, by decide⟩⟩
  | double =>
    exact ⟨⟨_, _, rfl, by decide⟩, ⟨doubleQuote :: a, doubleQuote, rfl, by decide⟩⟩

/-- Trimming and quote stripping recover the text of a written argument. -/
theorem arg_recovered (a : Arg) (h : plain a.text = true) :
    stripQuotes (utf8 (trimSpace a.write)) = some (utf8 a.text) := by
  obtain ⟨e1, e2⟩ := wrap_ends a.quoting h
  unfold Arg.write
  rw [trimSpace_padded _ _ _ e1 e2]
  cases hq : a.quoting with
  | bare => exact stripQuotes_plain h
  | single =>
    have := stripQuotes_quoted 39 (Or.inr rfl) (utf8 a.text)
    simpa [Quoting.wrap, utf8, utf8_append, singleQuote, utf8EncodeRune] using this
  | double =>
    have := stripQuotes_quoted 34 (Or.inl rfl) (utf8 a.text)
    simpa [Quoting.wrap, utf8, utf8_append, doubleQuote, utf8EncodeRune] using this

theorem arg_write_chars (a : Arg) (h : plain a.text = true) :
    a.write ≠ [] ∧ (∀ c ∈ a.write, c ≠ ',') ∧ (∀ c ∈ a.write, c ≠ ')') := by
  obtain ⟨hne, hall⟩ := plain_cons h
  have hw : a.quoting.wrap a.text ≠ [] ∧ ∀ c ∈ a.quoting.wrap a.text, c ≠ ',' ∧ c ≠ ')' := by
    cases a.quoting with
    | bare => exact ⟨hne, fun c hc => ⟨(hall c hc).1, (hall c hc).2.2.1⟩⟩
    | single =>
      refine ⟨by simp [Quoting.wrap], ?_⟩
      intro c hc
      simp only [Quoting.wrap, List.cons_append, List.mem_cons, List.mem_append,
        List.mem_singleton, List.not_mem_nil, or_false] at hc
      rcases hc with rfl | hc | rfl
      · exact ⟨by decide, by decide⟩
      · exact ⟨(hall c hc).1, (hall c hc).2.2.1⟩
      · exact ⟨by decide, by decide⟩
    | double =>
      refine ⟨by simp [Quoting.wrap], ?_⟩
      intro c hc
      simp only [Quoting.wrap, List.cons_append, List.mem_cons, List.mem_append,
        List.mem_singleton, List.not_mem_nil, or_false] at hc
      rcases hc with rfl | hc | rfl
      · exact ⟨by decide, by decide⟩
      · exact ⟨(hall c hc).1, (hall c hc).2.2.1⟩
      · exact ⟨by decide, by decide⟩
  have hmem : ∀ c ∈ a.write, c = ' ' ∨ c ∈ a.quoting.wrap a.text := by
    intro c hc
    simp only [Arg.write, List.mem_append, List.mem_replicate] at hc
    rcases hc with (⟨_, rfl⟩ | hc) | ⟨_, rfl⟩
    · exact Or.inl rfl
    · exact Or.inr hc
    · exact Or.inl rfl
  refine ⟨?_, ?_, ?_⟩
  · simp [Arg.write, hw.1]
  · intro c hc
    rcases hmem c hc with rfl | hc
    · decide
    · exact (hw.2 c hc).1
  · intro c hc
    rcases hmem c hc with rfl | hc
    · decide
    · exact (hw.2 c hc).2

/-- The pattern matches a well-formed clause as a whole, capturing its two
written arguments, whatever text follows. -/
theorem matchHere_clause (c : Clause) (h : c.plain = true) (rest : List Char) :
    matchHere (c.write ++ rest) = some (c.submatch, rest) := by
  simp only [Clause.plain, Bool.and_eq_true] at h
  obtain ⟨d1, d2, -⟩ := arg_write_chars c.domain h.1
  obtain ⟨t1, -, t3⟩ := arg_write_chars c.target h.2
  have := matchHere_of_shape c.domain.write c.target.write rest d1 t1 d2 t3
  simpa [Clause.write, Clause.submatch] using this

theorem parseMatch_clause (c : Clause) (h : c.plain = true) (acc : List RewritesLabel) :
    parseMatch acc c.submatch = some (acc ++ [c.rule]) := by
  simp only [Clause.plain, Bool.and_eq_true] at h
  simp [parseMatch, Clause.submatch, arg_recovered _ h.1, arg_recovered _ h.2, Clause.rule]

theorem matchHere_space (t : List Char) : matchHere (' ' :: t) = none := by
  simp [matchHere, rewriteHead, stripHead?]

theorem findAll_writeLabel (cs : List Clause) (h : ∀ c ∈ cs, c.plain = true)
    (tail : List Char) :
    findAllStringSubmatch (writeLabel cs ++ tail) =
      cs.map Clause.submatch ++ findAllStringSubmatch tail := by
  induction cs with
  | nil => simp [writeLabel]
  | cons c cs ih =>
    have hc := h c (by simp)
    have ih := ih (fun d hd => h d (by simp [hd]))
    cases cs with
    | nil =>
      simp only [writeLabel, List.map_cons, List.map_nil, List.cons_append, List.nil_append]
      exact findAll_match (matchHere_clause c hc tail)
    | cons d ds =>
      have e : writeLabel (c :: d :: ds) ++ tail =
          c.write ++ ' ' :: (writeLabel (d :: ds) ++ tail) := by
        simp [writeLabel]
      rw [e, findAll_match (matchHere_clause c hc _), findAll_skip (matchHere_space _), ih]
      simp

theorem parseMatches_append (l1 l2 : List (List (List Char))) (acc : List RewritesLabel) :
    parseMatches (l1 ++ l2) acc = (parseMatches l1 acc).bind (parseMatches l2) := by
  induction l1 generalizing acc with
  | nil => simp [parseMatches]
  | cons m ms ih =>
    simp only [List.cons_append, parseMatches]
    cases parseMatch acc m with
    | none => simp
    | some r => simp [ih]

theorem parseMatches_clauses (cs : List Clause) (h : ∀ c ∈ cs, c.plain = true)
    (acc : List RewritesLabel) :
    parseMatches (cs.map Clause.submatch) acc = some (acc ++ cs.map Clause.rule) := by
  induction cs generalizing acc with
  | nil => simp [parseMatches]
  | cons c cs ih =>
    simp only [List.map_cons, parseMatches, parseMatch_clause c (h c (by simp))]
    rw [ih (fun d hd => h d (by simp [hd]))]
    simp

/-- A text without any comma, or without any closing parenthesis, has no match. -/
theorem findAll_none (z : List Char)
    (h : (∀ c ∈ z, c ≠ ',') ∨ (∀ c ∈ z, c ≠ ')')) : findAllStringSubmatch z = [] := by
  induction z with
  | nil => exact findAll_nil
  | cons a t ih =>
    have hm : matchHere (a :: t) = none := by
      cases hm : matchHere (a :: t) with
      | none => rfl
      | some mr =>
        exfalso
        obtain ⟨m, rest⟩ := mr
        obtain ⟨g1, g2, hs, -⟩ := shape_of_matchHere hm
        rcases h with h | h
        · exact h ',' (by rw [hs]; simp) rfl
        · exact h ')' (by rw [hs]; simp) rfl
    rw [findAll_skip hm]
    apply ih
    rcases h with h | h
    · exact Or.inl fun c hc => h c (by simp [hc])
    · exact Or.inr fun c hc => h c (by simp [hc])

/-- Parsing well-formed clauses followed by a text that cannot match. -/
theorem parse_clauses_then (cs : List Clause) (h : ∀ c ∈ cs, c.plain = true) (z : List Char)
    (hz : (∀ c ∈ z, c ≠ ',') ∨ (∀ c ∈ z, c ≠ ')')) :
    parseRewritesLabel (String.mk (writeLabel cs ++ z)) = some (cs.map Clause.rule) := by
  unfold parseRewritesLabel
  show parseMatches (findAllStringSubmatch (writeLabel cs ++ z)) [] = _
  rw [findAll_writeLabel cs h z, findAll_none z hz, List.append_nil, parseMatches_clauses cs h]
  simp

/-! ## The store and the transitions -/

theorem any_rule_iff (l : List RewritesLabel) (r : RewritesLabel) :
    (l.any fun d => d.Domain == r.Domain && d.IP == r.IP) = true ↔ r ∈ l := by
  simp only [List.any_eq_true, Bool.and_eq_true, beq_iff_eq]
  constructor
  · rintro ⟨d, hd, h1, h2⟩
    have : d = r := by cases d; cases r; simp_all
    exact this ▸ hd
  · intro h
    exact ⟨r, h, rfl, rfl⟩

theorem domainExistsInState_iff (id : String) (r : RewritesLabel) (state : ContainerState) :
    domainExistsInState id r.Domain r.IP state = true ↔ r ∈ (state id).getD [] := by
  unfold domainExistsInState
  cases state id with
  | none => simp
  | some labels => simpa using any_rule_iff labels r

theorem issued_append (p q : Proc) (s : List Effect) (h : q.trace = p.trace ++ s) :
    issued p q = s := by
  simp [issued, h]

@[simp] theorem final_ok (p : Proc) : final (.ok p) = p := rfl

@[simp] theorem final_error (p : Proc) : final (.error p) = p := rfl

theorem list_transportError {w : World} {p : Proc} (d i : GoString)
    (h : w.list (p.trace ++ [Effect.list]) = .transportError) :
    domainExistsInAPIList w d i p =
      .error { p with trace := p.trace ++ [Effect.list] } := by
  simp only [domainExistsInAPIList, h]

theorem list_undecodable {w : World} {p : Proc} (d i : GoString)
    (h : w.list (p.trace ++ [Effect.list]) = .undecodable) :
    domainExistsInAPIList w d i p =
      .ok (false, { p with trace := p.trace ++ [Effect.list] }) := by
  simp only [domainExistsInAPIList, h]

theorem list_rules {w : World} {p : Proc} {ds : List RewritesLabel} (r : RewritesLabel)
    (h : w.list (p.trace ++ [Effect.list]) = .rules ds) :
    domainExistsInAPIList w r.Domain r.IP p =
      .ok (decide (r ∈ ds), { p with trace := p.trace ++ [Effect.list] }) := by
  simp only [domainExistsInAPIList, h]
  congr 2
  rw [Bool.eq_iff_iff, any_rule_iff]
  simp

/-- One delete transition leaves the store and the file alone, issues a list
request and at most a delete request for its rule, and ends in a panic only
when the list request fails in transport. -/
theorem deleteTransition_effect (w : World) (l : RewritesLabel) (p : Proc) :
    (final (deleteTransition w l p)).state = p.state ∧
    (final (deleteTransition w l p)).file = p.file ∧
    ((final (deleteTransition w l p)).trace = p.trace ++ [Effect.list] ∨
      (final (deleteTransition w l p)).trace = p.trace ++ [Effect.list, Effect.delete l]) ∧
    (w.list (p.trace ++ [Effect.list]) ≠ .transportError →
      ∃ q, deleteTransition w l p = .ok q) := by
  unfold deleteTransition
  cases hl : w.list (p.trace ++ [Effect.list]) with
  | transportError => simp [list_transportError _ _ hl]
  | undecodable => simp [list_undecodable _ _ hl]
  | rules ds =>
    rw [list_rules l hl]
    by_cases hm : l ∈ ds
    · simp only [hm, decide_True]
      cases w.send (p.trace ++ [Effect.list] ++ [Effect.delete l]) <;> simp
    · simp [hm]

theorem deleteLoop_effect (w : World) (labels : List RewritesLabel) (p : Proc) :
    (final (forLabels (deleteTransition w) labels p)).state = p.state ∧
    (final (forLabels (deleteTransition w) labels p)).file = p.file ∧
    (∃ s, (final (forLabels (deleteTransition w) labels p)).trace = p.trace ++ s ∧
      ∀ e ∈ s, e = Effect.list ∨ ∃ l ∈ labels, e = Effect.delete l) ∧
    ((∀ t, w.list (p.trace ++ t) ≠ .transportError) →
      ∃ q, forLabels (deleteTransition w) labels p = .ok q) := by
  induction labels generalizing p with
  | nil => exact ⟨rfl, rfl, ⟨[], by simp [forLabels, final], by simp⟩, fun _ => ⟨p, rfl⟩⟩
  | cons l ls ih =>
    obtain ⟨h1, h2, h3, h4⟩ := deleteTransition_effect w l p
    simp only [forLabels]
    cases hd : deleteTransition w l p with
    | error q =>
      rw [hd] at h1 h2 h3 h4
      simp only [final_error] at h1 h2 h3 ⊢
      refine ⟨h1, h2, ?_, ?_⟩
      · rcases h3 with h3 | h3
        · exact ⟨_, h3, by simp⟩
        · exact ⟨_, h3, by simp⟩
      · intro hw
        obtain ⟨q2, hq2⟩ := h4 (hw _)
        simp at hq2
    | ok q =>
      rw [hd] at h1 h2 h3
      simp only [final_ok] at h1 h2 h3 ⊢
      obtain ⟨i1, i2, ⟨s, hs, hmem⟩, i4⟩ := ih q
      have i5 : (∀ t, w.list (p.trace ++ t) ≠ .transportError) →
          ∃ q2, forLabels (deleteTransition w) ls q = .ok q2 := by
        intro hw
        apply i4
        intro t
        rcases h3 with h3 | h3 <;> rw [h3, List.append_assoc] <;> exact hw _
      refine ⟨i1.trans h1, i2.trans h2, ?_, i5⟩
      rcases h3 with h3 | h3
      · refine ⟨[Effect.list] ++ s, by rw [hs, h3]; simp, ?_⟩
        intro e he
        simp only [List.singleton_append, List.mem_cons] at he
        rcases he with rfl | he
        · exact Or.inl rfl
        · rcases hmem e he with h | ⟨l2, hl2, rfl⟩
          · exact Or.inl h
          · exact Or.inr ⟨l2, by simp [hl2], rfl⟩
      · refine ⟨[Effect.list, Effect.delete l] ++ s, by rw [hs, h3]; simp, ?_⟩
        intro e he
        simp only [List.cons_append, List.nil_append, List.mem_cons] at he
        rcases he with rfl | rfl | he
        · exact Or.inl rfl
        · exact Or.inr ⟨l, by simp, rfl⟩
        · rcases hmem e he with h | ⟨l2, hl2, rfl⟩
          · exact Or.inl h
          · exact Or.inr ⟨l2, by simp [hl2], rfl⟩

theorem stopAction_branch (w : World) (event : Event) (p : Proc)
    (hact : event.Action ∈ ["stop", "kill", "die", "pause", "restart"]) :
    handleEvent w event p =
      match p.state event.ID with
      | none => .ok p
      | some labels =>
        match forLabels (deleteTransition w) labels p with
        | .error q => .error q
        | .ok q => .ok (saveState w { q with state := q.state.delete event.ID }) := by
  unfold handleEvent
  simp only [List.mem_cons, List.mem_singleton, List.not_mem_nil, or_false] at hact
  rcases hact with h | h | h | h | h <;> simp [h]

@[simp] theorem saveState_state (w : World) (p : Proc) : (saveState w p).state = p.state := by
  simp only [saveState]; cases w.write (p.trace ++ [Effect.writeFile]) <;> rfl

@[simp] theorem saveState_trace (w : World) (p : Proc) :
    (saveState w p).trace = p.trace ++ [Effect.writeFile] := by
  simp only [saveState]; cases w.write (p.trace ++ [Effect.writeFile]) <;> rfl

/-- The create transition, case by case. -/
theorem createTransition_cases (w : World) (id : String) (r : RewritesLabel) (p : Proc)
    (ds : List RewritesLabel) (hlist : w.list (p.trace ++ [Effect.list]) = .rules ds) :
    createTransition w id r p =
      if r ∈ (p.state id).getD [] then .ok p
      else if r ∈ ds then .ok { p with trace := p.trace ++ [Effect.list] }
      else if w.send (p.trace ++ [Effect.list, Effect.add r]) = .status 200 then
        .ok (saveState w { trace := p.trace ++ [Effect.list, Effect.add r],
                           state := p.state.append id r, file := p.file })
      else .ok { p with trace := p.trace ++ [Effect.list, Effect.add r] } := by
  unfold createTransition
  by_cases hown : r ∈ (p.state id).getD []
  · simp [(domainExistsInState_iff id r p.state).2 hown, hown]
  · have : domainExistsInState id r.Domain r.IP p.state = false := by
      rw [← Bool.not_eq_true, domainExistsInState_iff]; exact hown
    rw [this, list_rules r hlist]
    by_cases hds : r ∈ ds
    · simp [hown, hds]
    · simp only [Bool.false_eq_true, if_false, hown, hds, decide_False, List.append_assoc,
        List.singleton_append]
      cases hs : w.send (p.trace ++ [Effect.list, Effect.add r]) with
      | error => simp
      | status c =>
        by_cases hc : c = 200
        · simp [hc]
        · simp [hc]

theorem append_ne (state : ContainerState) (id : String) (r : RewritesLabel) :
    state.append id r ≠ state := by
  intro h
  have := congrFun h id
  simp only [ContainerState.append, if_true] at this
  cases hs : state id with
  | none => simp [hs] at this
  | some l =>
    rw [hs] at this
    have := congrArg (fun o => (o.getD []).length) this
    simp at this

/-! ## The claims about the transitions -/

/-- Claim C1, idempotent create.  When `id` does not own `r`, the authority
lists rules that do not contain `r` and answers the add request with status
200, two create transitions for `(id, r)` in succession both return, together
they issue one list request, one add request and one file write, the second of
them issues nothing at all, and afterwards `r` occurs once in the sequence the
store holds for `id`. -/
theorem create_twice_one_call (w : World) (id : String) (r : RewritesLabel) (p : Proc)
    (ds : List RewritesLabel)
    (hown : r ∉ (p.state id).getD [])
    (hlist : w.list (p.trace ++ [Effect.list]) = .rules ds)
    (hds : r ∉ ds)
    (hadd : w.send (p.trace ++ [Effect.list, Effect.add r]) = .status 200) :
    ∃ p1 p2, createTransition w id r p = .ok p1 ∧ createTransition w id r p1 = .ok p2 ∧
      issued p p2 = [Effect.list, Effect.add r, Effect.writeFile] ∧
      issued p1 p2 = [] ∧
      ((p2.state id).getD []).count r = 1 := by
  have e1 := createTransition_cases w id r p ds hlist
  simp only [hown, hds, hadd, if_true, if_false] at e1
  generalize hp1 : saveState w (Proc.mk (p.trace ++ [Effect.list, Effect.add r])
    (p.state.append id r) p.file) = p1 at e1
  have htr : p1.trace = p.trace ++ [Effect.list, Effect.add r, Effect.writeFile] := by
    rw [← hp1]; simp
  have hst : (p1.state id).getD [] = (p.state id).getD [] ++ [r] := by
    rw [← hp1]; simp [ContainerState.append]
  have e2 : createTransition w id r p1 = .ok p1 := by
    unfold createTransition
    rw [(domainExistsInState_iff id r _).2 (by rw [hst]; simp)]
    simp
  refine ⟨_, _, e1, e2, ?_, ?_, ?_⟩
  · exact issued_append _ _ _ htr
  · simp [issued]
  · rw [hst, List.count_append, List.count_eq_zero_of_not_mem hown]
    simp

/-- The hypotheses of `create_twice_one_call` hold for container `c1`, the rule
`{a.com, 1.2.3.4}`, the empty store and an authority without rules. -/
theorem create_twice_one_call_witness :
    ruleA ∉ (procEmpty.state "c1").getD [] ∧
    (worldListing [] none).list (procEmpty.trace ++ [Effect.list]) = .rules [] ∧
    ruleA ∉ ([] : List RewritesLabel) ∧
    (worldListing [] none).send (procEmpty.trace ++ [Effect.list, Effect.add ruleA]) =
      .status 200 ∧
    ∃ p1 p2, createTransition (worldListing [] none) "c1" ruleA procEmpty = .ok p1 ∧
      createTransition (worldListing [] none) "c1" ruleA p1 = .ok p2 ∧
      issued procEmpty p2 = [Effect.list, Effect.add ruleA, Effect.writeFile] ∧
      issued p1 p2 = [] ∧
      ((p2.state "c1").getD []).count ruleA = 1 :=
  ⟨by simp [procEmpty, emptyState], rfl, by simp, rfl,
    create_twice_one_call (worldListing [] none) "c1" ruleA procEmpty []
      (by simp [procEmpty, emptyState]) rfl (by simp) rfl⟩

/-- Claim C2, outcome of the create transition.  When the authority lists the
rules `ds`, the create transition returns, and it changes the store exactly
when `r` is not owned by `id`, `ds` does not contain `r` and the add request is
answered with status 200; the new store then holds the old sequence of `id`
with `r` appended (an entry is created when there was none) and every other
entry as before; in every other case the store is the old one. -/
theorem create_outcome (w : World) (id : String) (r : RewritesLabel) (p : Proc)
    (ds : List RewritesLabel)
    (hlist : w.list (p.trace ++ [Effect.list]) = .rules ds) :
    ∃ q, createTransition w id r p = .ok q ∧
      (q.state ≠ p.state ↔
        (r ∉ (p.state id).getD [] ∧ r ∉ ds ∧
          w.send (p.trace ++ [Effect.list, Effect.add r]) = .status 200)) ∧
      ((r ∉ (p.state id).getD [] ∧ r ∉ ds ∧
          w.send (p.trace ++ [Effect.list, Effect.add r]) = .status 200) →
        q.state id = some ((p.state id).getD [] ++ [r]) ∧
        ∀ k, k ≠ id → q.state k = p.state k) ∧
      (¬ (r ∉ (p.state id).getD [] ∧ r ∉ ds ∧
          w.send (p.trace ++ [Effect.list, Effect.add r]) = .status 200) →
        q.state = p.state) := by
  have e := createTransition_cases w id r p ds hlist
  by_cases hown : r ∈ (p.state id).getD []
  · simp only [hown, if_true] at e
    exact ⟨p, e, by simp [hown], by simp [hown], fun _ => rfl⟩
  · by_cases hds : r ∈ ds
    · simp only [hown, hds, if_true, if_false] at e
      exact ⟨_, e, by simp [hds], by simp [hds], fun _ => rfl⟩
    · by_cases hs : w.send (p.trace ++ [Effect.list, Effect.add r]) = .status 200
      · simp only [hown, hds, hs, if_true, if_false] at e
        refine ⟨_, e, ?_, ?_, ?_⟩
        · simp [hown, hds, hs, append_ne]
        · intro _
          refine ⟨by simp [ContainerState.append], ?_⟩
          intro k hk
          simp [ContainerState.append, hk]
        · intro h
          exact absurd ⟨hown, hds, hs⟩ h
      · simp only [hown, hds, hs, if_false] at e
        exact ⟨_, e, by simp [hs], by simp [hs], fun _ => rfl⟩

/-- The hypothesis of `create_outcome` holds for an authority without rules. -/
theorem create_outcome_witness :
    (worldListing [] none).list (procEmpty.trace ++ [Effect.list]) = .rules [] ∧
    ∃ q, createTransition (worldListing [] none) "c1" ruleA procEmpty = .ok q ∧
      (q.state ≠ procEmpty.state ↔
        (ruleA ∉ (procEmpty.state "c1").getD [] ∧ ruleA ∉ ([] : List RewritesLabel) ∧
          (worldListing [] none).send (procEmpty.trace ++ [Effect.list, Effect.add ruleA]) =
            .status 200)) ∧
      ((ruleA ∉ (procEmpty.state "c1").getD [] ∧ ruleA ∉ ([] : List RewritesLabel) ∧
          (worldListing [] none).send (procEmpty.trace ++ [Effect.list, Effect.add ruleA]) =
            .status 200) →
        q.state "c1" = some ((procEmpty.state "c1").getD [] ++ [ruleA]) ∧
        ∀ k, k ≠ "c1" → q.state k = procEmpty.state k) ∧
      (¬ (ruleA ∉ (procEmpty.state "c1").getD [] ∧ ruleA ∉ ([] : List RewritesLabel) ∧
          (worldListing [] none).send (procEmpty.trace ++ [Effect.list, Effect.add ruleA]) =
            .status 200) →
        q.state = procEmpty.state) :=
  ⟨rfl, create_outcome (worldListing [] none) "c1" ruleA procEmpty [] rfl⟩

/-- Stop-class events while the authority answers its list requests.  For every
stop-class action, when every list request made from the start of the event on
gets a response (decodable or not; the rule may be listed or not), then
whatever the answers to the delete requests are (status 200, another status, a
transport error), the event is handled to the end and the store has no entry
for the container afterwards.  The remaining outcome, a list request that fails
in transport, is `stop_event_list_failure_keeps_entry`. -/
theorem stop_removes_entry (w : World) (event : Event) (p : Proc)
    (hact : event.Action ∈ ["stop", "kill", "die", "pause", "restart"])
    (hlist : ∀ t, w.list (p.trace ++ t) ≠ .transportError) :
    ∃ q, handleEvent w event p = .ok q ∧ q.state event.ID = none := by
  rw [stopAction_branch w event p hact]
  cases hs : p.state event.ID with
  | none => exact ⟨p, rfl, hs⟩
  | some labels =>
    obtain ⟨-, -, -, h4⟩ := deleteLoop_effect w labels p
    obtain ⟨q, hq⟩ := h4 hlist
    simp only [hq]
    exact ⟨_, rfl, by simp [ContainerState.delete]⟩

/-- The hypotheses of `stop_removes_entry` hold for a stop event of container
`c1`, which owns `{a.com, 1.2.3.4}`, in a world that lists that rule. -/
theorem stop_removes_entry_witness :
    (Event.mk "c1" "stop").Action ∈ ["stop", "kill", "die", "pause", "restart"] ∧
    (∀ t, (worldListing [ruleA] none).list (procOwningA.trace ++ t) ≠ .transportError) ∧
    ∃ q, handleEvent (worldListing [ruleA] none) (Event.mk "c1" "stop") procOwningA = .ok q ∧
      q.state (Event.mk "c1" "stop").ID = none :=
  ⟨by decide, (fun _ h => by cases h),
    stop_removes_entry (worldListing [ruleA] none) (Event.mk "c1" "stop") procOwningA
      (by decide) (fun _ h => by cases h)⟩

/-- Claim C3 fails on the code: when the list request made for an owned rule
fails in transport, the existence check dereferences the nil response (the
error of `httpClient.Do` is not looked at), the stop event of container `c1`
ends in a panic right after that request, before `delete(state, event.ID)` and
`saveState`, and both the in-memory store and the state file still hold the
entry of `c1`. -/
theorem stop_event_list_failure_keeps_entry :
    procOwningA.state "c1" = some [ruleA] ∧
    (Event.mk "c1" "stop").Action ∈ ["stop", "kill", "die", "pause", "restart"] ∧
    worldUnreachable.list (procOwningA.trace ++ [Effect.list]) = .transportError ∧
    ∃ q, handleEvent worldUnreachable (Event.mk "c1" "stop") procOwningA = .error q ∧
      issued procOwningA q = [Effect.list] ∧
      q.state "c1" = some [ruleA] ∧
      q.file.entry "c1" = some [ruleA] := by
  refine ⟨by decide, by decide, rfl, _, rfl, ?_, ?_, ?_⟩ <;> decide

/-- Claim C4, no double-claim.  When `id` does not own `r` and the authority
already lists `r`, the create transition issues the list request only and
leaves the store as it was; a stop-class event for `id` handled right after it
issues no delete request for `r`, and issues no remote request at all (at most
a file write) when `id` owns nothing. -/
theorem no_double_claim (w : World) (id action : String) (r : RewritesLabel) (p : Proc)
    (ds : List RewritesLabel)
    (hown : r ∉ (p.state id).getD [])
    (hlist : w.list (p.trace ++ [Effect.list]) = .rules ds)
    (hds : r ∈ ds)
    (hact : action ∈ ["stop", "kill", "die", "pause", "restart"]) :
    ∃ p1, createTransition w id r p = .ok p1 ∧
      issued p p1 = [Effect.list] ∧ p1.state = p.state ∧
      Effect.delete r ∉ issued p1 (final (handleEvent w (Event.mk id action) p1)) ∧
      ((p.state id).getD [] = [] →
        ∀ e ∈ issued p1 (final (handleEvent w (Event.mk id action) p1)),
          e = Effect.writeFile) := by
  have e := createTransition_cases w id r p ds hlist
  simp only [hown, hds, if_true, if_false] at e
  refine ⟨_, e, issued_append _ _ _ rfl, rfl, ?_⟩
  generalize hp1 : ({ p with trace := p.trace ++ [Effect.list] } : Proc) = p1
  have hst : p1.state = p.state := by rw [← hp1]
  rw [stopAction_branch w (Event.mk id action) p1 hact]
  simp only [hst]
  cases hs : p.state id with
  | none => simp [issued]
  | some labels =>
    rw [hs] at hown
    simp only [Option.getD_some] at hown ⊢
    obtain ⟨-, -, ⟨s, hs1, hs2⟩, -⟩ := deleteLoop_effect w labels p1
    have key : ∃ s2, issued p1 (final (match forLabels (deleteTransition w) labels p1 with
        | .error q => Except.error q
        | .ok q => .ok (saveState w { q with state := q.state.delete id }))) = s ++ s2 ∧
        ∀ e ∈ s2, e = Effect.writeFile := by
      cases hf : forLabels (deleteTransition w) labels p1 with
      | error q =>
        rw [hf] at hs1
        exact ⟨[], by simp [issued_append p1 q s (by simpa using hs1)], by simp⟩
      | ok q =>
        rw [hf] at hs1
        refine ⟨[Effect.writeFile], issued_append _ _ _ ?_, by simp⟩
        simp only [final_ok] at hs1
        simp [hs1]
    obtain ⟨s2, hk, hs3⟩ := key
    rw [hk]
    refine ⟨?_, ?_⟩
    · intro hmem
      rcases List.mem_append.1 hmem with h | h
      · rcases hs2 _ h with h | ⟨l, hl, h⟩
        · cases h
        · injection h with h
          exact hown (h ▸ hl)
      · cases hs3 _ h
    · intro hnil e he
      subst hnil
      rcases List.mem_append.1 he with h | h
      · rcases hs2 _ h with h | ⟨l, hl, h⟩
        · have : s = [] := by
            simp only [forLabels, final_ok] at hs1
            simpa using hs1
          subst this
          simp at h
        · simp at hl
      · exact hs3 _ h

/-- The hypotheses of `no_double_claim` hold for container `c1` with an empty
store and an authority that already lists `{a.com, 1.2.3.4}`. -/
theorem no_double_claim_witness :
    ruleA ∉ (procEmpty.state "c1").getD [] ∧
    (worldListing [ruleA] none).list (procEmpty.trace ++ [Effect.list]) = .rules [ruleA] ∧
    ruleA ∈ [ruleA] ∧
    "stop" ∈ ["stop", "kill", "die", "pause", "restart"] ∧
    ∃ p1, createTransition (worldListing [ruleA] none) "c1" ruleA procEmpty = .ok p1 ∧
      issued procEmpty p1 = [Effect.list] ∧ p1.state = procEmpty.state ∧
      Effect.delete ruleA ∉
        issued p1 (final (handleEvent (worldListing [ruleA] none) (Event.mk "c1" "stop") p1)) ∧
      ((procEmpty.state "c1").getD [] = [] →
        ∀ e ∈ issued p1
            (final (handleEvent (worldListing [ruleA] none) (Event.mk "c1" "stop") p1)),
          e = Effect.writeFile) :=
  ⟨by simp [procEmpty, emptyState], rfl, by simp, by decide,
    no_double_claim (worldListing [ruleA] none) "c1" "stop" ruleA procEmpty [ruleA]
      (by simp [procEmpty, emptyState]) rfl (by simp) (by decide)⟩

/-! ## The claims about the parser -/

/-- Claim C5, parser correctness on well-formed input.  For every list of
clauses whose argument texts are plain (non-empty, without comma, parenthesis,
quote or white space), each argument written bare, in single quotes or in
double quotes and padded with any number of spaces, `parseRewritesLabel` on the
clauses separated by single spaces returns the rules of the clauses, in order,
quotes and padding removed. -/
theorem parse_wellformed (cs : List Clause) (h : ∀ c ∈ cs, c.plain = true) :
    parseRewritesLabel (String.mk (writeLabel cs)) = some (cs.map Clause.rule) := by
  have := parse_clauses_then cs h [] (Or.inl (by simp))
  simpa using this

/-- The hypothesis of `parse_wellformed` holds for the two clauses of
`Rewrite(a.com,1.2.3.4) Rewrite('b.com','5.6.7.8')`, and the result is
`[{a.com, 1.2.3.4}, {b.com, 5.6.7.8}]`. -/
theorem parse_wellformed_witness :
    (∀ c ∈ clausesAB, c.plain = true) ∧
    String.mk (writeLabel clausesAB) = "Rewrite(a.com,1.2.3.4) Rewrite('b.com','5.6.7.8')" ∧
    clausesAB.map Clause.rule = [ruleA, ruleB] ∧
    parseRewritesLabel (String.mk (writeLabel clausesAB)) = some (clausesAB.map Clause.rule) :=
  ⟨by decide, by decide, by decide, parse_wellformed clausesAB (by decide)⟩

/-- Claim C6 fails on the code: on the label text `Rewrite(",1.2.3.4)` the
first argument is a lone double quote, the slice `domain[1 : len(domain)-1]` is
`domain[1:0]`, and `parseRewritesLabel` panics. -/
theorem lone_quote_panics :
    stripQuotes (go "\"") = none ∧ parseRewritesLabel "Rewrite(\",1.2.3.4)" = none := by
  decide

/-- Claim C7 fails on the code: an argument with a leading quote and no closing
quote loses its first and its last character, and an argument closed by a quote
of the other kind is stripped all the same. -/
theorem unmatched_quote_stripped :
    parseRewritesLabel "Rewrite('a.com,1.2.3.4)" =
      some [{ Domain := go "a.co", IP := go "1.2.3.4" }] ∧
    parseRewritesLabel "Rewrite('a.com\",1.2.3.4)" =
      some [{ Domain := go "a.com", IP := go "1.2.3.4" }] := by
  decide

/-- Claim C10 as stated fails: in `Rewrite(a.com) Rewrite(b.com,5.6.7.8)` the
first argument of the pattern runs up to the first comma of the text, so the
one rule returned has the domain `a.com) Rewrite(b.com`, while the second
clause alone parses to `{b.com, 5.6.7.8}`. -/
theorem leading_malformed_clause_absorbs :
    parseRewritesLabel "Rewrite(a.com) Rewrite(b.com,5.6.7.8)" =
      some [{ Domain := go "a.com) Rewrite(b.com", IP := go "5.6.7.8" }] ∧
    parseRewritesLabel "Rewrite(b.com,5.6.7.8)" = some [ruleB] ∧
    parseRewritesLabel "Rewrite(a.com) Rewrite(b.com,5.6.7.8)" ≠
      parseRewritesLabel "Rewrite(b.com,5.6.7.8)" := by
  decide

/-- Claim C10 as amended.  A text that holds no comma, or no closing
parenthesis, written behind well-formed clauses contributes no rule and leaves
the clauses parsed as themselves; with no clause in front, such a text parses
to the empty sequence. -/
theorem malformed_tail_dropped (cs : List Clause) (z : List Char)
    (h : ∀ c ∈ cs, c.plain = true)
    (hz : (∀ c ∈ z, c ≠ ',') ∨ (∀ c ∈ z, c ≠ ')')) :
    parseRewritesLabel (String.mk (writeLabel cs ++ z)) = some (cs.map Clause.rule) :=
  parse_clauses_then cs h z hz

/-- The hypotheses of `malformed_tail_dropped` hold for the text
`Rewrite(b.com,5.6.7.8) Rewrite(a.com)`; with no clause in front they hold for
the empty text, `garbage` and `Rewrite(a.com)`. -/
theorem malformed_tail_dropped_witness :
    (∀ c ∈ [clauseB], c.plain = true) ∧
    ((∀ c ∈ " Rewrite(a.com)".toList, c ≠ ',') ∨ (∀ c ∈ " Rewrite(a.com)".toList, c ≠ ')')) ∧
    String.mk (writeLabel [clauseB] ++ " Rewrite(a.com)".toList) =
      "Rewrite(b.com,5.6.7.8) Rewrite(a.com)" ∧
    parseRewritesLabel (String.mk (writeLabel [clauseB] ++ " Rewrite(a.com)".toList)) =
      some ([clauseB].map Clause.rule) ∧
    parseRewritesLabel "" = some [] ∧
    parseRewritesLabel "garbage" = some [] ∧
    parseRewritesLabel "Rewrite(a.com)" = some [] :=
  ⟨by decide, by decide, by decide,
    malformed_tail_dropped [clauseB] " Rewrite(a.com)".toList (by decide) (by decide),
    malformed_tail_dropped [] "".toList (by decide) (by decide),
    malformed_tail_dropped [] "garbage".toList (by decide) (by decide),
    malformed_tail_dropped [] "Rewrite(a.com)".toList (by decide) (by decide)⟩

/-! ## The claims about failed listings and the state file -/

/-- Claim C9 as stated fails: when the list response does not decode, the
existence check answers `false`, and the create transition for the unowned rule
`{a.com, 1.2.3.4}` issues the add request and, on status 200, records the rule
in the store. -/
theorem undecodable_list_still_creates :
    ruleA ∉ (procEmpty.state "c1").getD [] ∧
    worldUndecodable.list (procEmpty.trace ++ [Effect.list]) = .undecodable ∧
    issued procEmpty (final (createTransition worldUndecodable "c1" ruleA procEmpty)) =
      [Effect.list, Effect.add ruleA, Effect.writeFile] ∧
    (final (createTransition worldUndecodable "c1" ruleA procEmpty)).state "c1" =
      some [ruleA] ∧
    procEmpty.state "c1" = none := by
  decide

/-- Claim C9 as amended.  When `id` does not own `r` and the body of the list
response does not decode, the existence check returns without a panic, the
create transition returns and issues the add request, and the store is changed
(`r` appended under `id`, followed by a file write) exactly when the add
request is answered with status 200. -/
theorem undecodable_list_create (w : World) (id : String) (r : RewritesLabel) (p : Proc)
    (hown : r ∉ (p.state id).getD [])
    (hlist : w.list (p.trace ++ [Effect.list]) = .undecodable) :
    domainExistsInAPIList w r.Domain r.IP p =
      .ok (false, { p with trace := p.trace ++ [Effect.list] }) ∧
    ∃ q, createTransition w id r p = .ok q ∧
      (w.send (p.trace ++ [Effect.list, Effect.add r]) = .status 200 →
        issued p q = [Effect.list, Effect.add r, Effect.writeFile] ∧
        q.state = p.state.append id r) ∧
      (w.send (p.trace ++ [Effect.list, Effect.add r]) ≠ .status 200 →
        issued p q = [Effect.list, Effect.add r] ∧ q.state = p.state) := by
  refine ⟨list_undecodable _ _ hlist, ?_⟩
  have hfalse : domainExistsInState id r.Domain r.IP p.state = false := by
    rw [← Bool.not_eq_true, domainExistsInState_iff]; exact hown
  unfold createTransition
  rw [hfalse, list_undecodable _ _ hlist]
  simp only [Bool.false_eq_true, if_false, List.append_assoc, List.singleton_append]
  cases hs : w.send (p.trace ++ [Effect.list, Effect.add r]) with
  | error =>
    exact ⟨_, rfl, by simp, fun _ => ⟨issued_append _ _ _ rfl, rfl⟩⟩
  | status c =>
    by_cases hc : c = 200
    · subst hc
      exact ⟨_, rfl, fun _ => ⟨issued_append _ _ _ (by simp), by simp⟩, by simp⟩
    · simp only [hc, if_false]
      exact ⟨_, rfl, by simp [hc], fun _ => ⟨issued_append _ _ _ rfl, rfl⟩⟩

/-- The hypotheses of `undecodable_list_create` hold for container `c1`, the
rule `{a.com, 1.2.3.4}`, the empty store and a world whose list responses do
not decode. -/
theorem undecodable_list_create_witness :
    ruleA ∉ (procEmpty.state "c1").getD [] ∧
    worldUndecodable.list (procEmpty.trace ++ [Effect.list]) = .undecodable ∧
    (domainExistsInAPIList worldUndecodable ruleA.Domain ruleA.IP procEmpty =
      .ok (false, { procEmpty with trace := procEmpty.trace ++ [Effect.list] }) ∧
    ∃ q, createTransition worldUndecodable "c1" ruleA procEmpty = .ok q ∧
      (worldUndecodable.send (procEmpty.trace ++ [Effect.list, Effect.add ruleA]) =
          .status 200 →
        issued procEmpty q = [Effect.list, Effect.add ruleA, Effect.writeFile] ∧
        q.state = procEmpty.state.append "c1" ruleA) ∧
      (worldUndecodable.send (procEmpty.trace ++ [Effect.list, Effect.add ruleA]) ≠
          .status 200 →
        issued procEmpty q = [Effect.list, Effect.add ruleA] ∧
        q.state = procEmpty.state)) :=
  ⟨by simp [procEmpty, emptyState], rfl,
    undecodable_list_create worldUndecodable "c1" ruleA procEmpty
      (by simp [procEmpty, emptyState]) rfl⟩

/-- A list request that fails in transport ends the program: the existence
check dereferences the nil response, in the create transition as in the
handling of a stop event, whose store entry is then never removed. -/
theorem list_transport_error_aborts :
    createTransition worldUnreachable "c1" ruleA procEmpty =
      .error { procEmpty with trace := [Effect.list] } ∧
    (∃ q, handleEvent worldUnreachable (Event.mk "c1" "stop") procOwningA = .error q ∧
      q.state "c1" = some [ruleA]) := by
  refine ⟨rfl, ⟨_, rfl, ?_⟩⟩
  decide

/-- Claim C8 fails on the code: the program never reads the state file.
Started with a state file that records `{a.com, 1.2.3.4}` for container `c1`,
the in-memory store has no entry for `c1`, the rule is not owned, a stop event
for `c1` issues nothing, and the file write after a start event of container
`c2` leaves a document with the entry of `c2` and without the entry of `c1`. -/
theorem state_file_not_loaded :
    (FileContent.document (emptyState.append "c1" ruleA)).entry "c1" = some [ruleA] ∧
    ∃ p, startup (worldListing [ruleA] (some "Rewrite(b.com,5.6.7.8)"))
        (.document (emptyState.append "c1" ruleA)) = some p ∧
      p.state "c1" = none ∧
      domainExistsInState "c1" ruleA.Domain ruleA.IP p.state = false ∧
      issued p (final (handleEvent (worldListing [ruleA] (some "Rewrite(b.com,5.6.7.8)"))
        (Event.mk "c1" "stop") p)) = [] ∧
      (final (handleEvent (worldListing [ruleA] (some "Rewrite(b.com,5.6.7.8)"))
        (Event.mk "c2" "start") p)).file.entry "c2" = some [ruleB] ∧
      (final (handleEvent (worldListing [ruleA] (some "Rewrite(b.com,5.6.7.8)"))
        (Event.mk "c2" "start") p)).file.entry "c1" = none := by
  refine ⟨by decide, _, rfl, ?_, ?_, ?_, ?_, ?_⟩ <;> decide

end DnsSync
